import Mathlib

/-!
Verification of the belief-update engine, decision policies and simulation
loop of the stochastic-optimization Medical Decision (Diabetes) model.

The repository ships a notebook (`MedicalDecisionDiabetes.ipynb`) that drives
two Python modules (`MedicalDecisionDiabetesModel`, the Bayesian belief model,
and `MedicalDecisionDiabetesPolicies`, the UCB / Interval Estimation
policies).  The notebook's own post-processing code (the per-drug
mean / std-dev / count columns and the `groupby("N").diff()` derived "chosen"
column) is embedded directly from its cells; the model and policy modules are
not part of the visible sources, so they are modelled from the specification,
marked as such in their doc comments.

Design of the embedding: real-valued quantities are `ℝ`, observation counts
are `ℕ`, alternatives are `Fin k` in their fixed configured order, the random
source is an explicit stream `ℕ → ℝ` of draws, and the UCB score lives in
`WithTop ℝ` so that the "infinitely attractive" `n = 0` case is the literal
top element and `ln t / 0` is never formed.
-/

namespace MedicalDecision

/-- Modelled from the spec: the per-alternative Bayesian belief
`(mu, beta, n)` — posterior mean, posterior precision (inverse variance) and
observation count (spec §3, BeliefState). -/
structure BeliefState where
  mu : ℝ
  beta : ℝ
  n : ℕ

/-- Modelled from the spec: the observation precision `beta_W = 1 / sigma_W^2`,
derived once from the configured observation-noise standard deviation
(spec §4.1). -/
noncomputable def beta_W (sigma_W : ℝ) : ℝ := 1 / sigma_W ^ 2

/-- Modelled from the spec: the conjugate normal-normal Bayesian update of one
belief from one noisy observation (spec §4.1): `beta' = beta + beta_W`,
`mu' = (beta * mu + beta_W * observation) / beta'`, `n' = n + 1`. -/
noncomputable def BeliefState.update (b : BeliefState) (bW observation : ℝ) :
    BeliefState :=
  { mu := (b.beta * b.mu + bW * observation) / (b.beta + bW)
    beta := b.beta + bW
    n := b.n + 1 }

/-- Modelled from the spec: the static configuration of a simulation model —
per-alternative prior mean and standard deviation, per-alternative
ground-truth sampling distribution (represented by the map sending one unit
random draw to one truth sample), the observation-noise standard deviation
`sigma_W`, and the trial horizon `T` (spec §3, §6).  Alternatives are `Fin k`
in their fixed configured order. -/
structure Config (k : ℕ) where
  prior_mean : Fin k → ℝ
  prior_std : Fin k → ℝ
  truthDist : Fin k → ℝ → ℝ
  sigma_W : ℝ
  T : ℕ

/-- Modelled from the spec: the initial belief of one alternative,
`(prior_mean, 1 / prior_std^2, 0)` (spec §4.1 Initialization). -/
noncomputable def initBelief {k : ℕ} (cfg : Config k) (x : Fin k) : BeliefState :=
  { mu := cfg.prior_mean x, beta := 1 / cfg.prior_std x ^ 2, n := 0 }

/-- Modelled from the spec: the ObservationModel draw — one sample of a normal
distribution with mean `ground_truth` and standard deviation `sigma_W`,
realized from one unit draw `z` of the explicit random source (spec §4.2). -/
noncomputable def sample (ground_truth sigma_W z : ℝ) : ℝ :=
  ground_truth + sigma_W * z

/-- Modelled from the spec: deterministic arg-max selection over the
configured alternative order with ties broken by the first (least-index)
alternative attaining the maximal score (spec §4.5 tie-break policy). -/
noncomputable def selectBest {k : ℕ} {β : Type} [LinearOrder β] (hk : 0 < k)
    (score : Fin k → β) : Fin k :=
  ((List.finRange k).argmax score).getD ⟨0, hk⟩

/-- Modelled from the spec: the UCB score of one belief at (1-indexed) trial
`t` — `mu + theta * sqrt (ln t / n)` when `n > 0`, and the top element
("infinitely attractive", so `ln t / 0` is never formed) when `n = 0`
(spec §4.5 UCB). -/
noncomputable def ucbScore (theta : ℝ) (t : ℕ) (b : BeliefState) : WithTop ℝ :=
  if b.n = 0 then ⊤
  else ((b.mu + theta * Real.sqrt (Real.log t / b.n) : ℝ) : WithTop ℝ)

/-- Modelled from the spec: the Interval Estimation score of one belief —
`mu + theta / sqrt beta`, the mean plus `theta` posterior standard
deviations, with no `n = 0` special case (spec §4.5 IE). -/
noncomputable def ieScore (theta : ℝ) (b : BeliefState) : ℝ :=
  b.mu + theta / Real.sqrt b.beta

/-- Modelled from the spec: the UCB selection rule — arg-max of `ucbScore`
over the configured alternatives at 1-indexed trial `t` (spec §4.5). -/
noncomputable def ucbSelect {k : ℕ} (theta : ℝ) (hk : 0 < k) (t : ℕ)
    (s : Fin k → BeliefState) : Fin k :=
  selectBest hk fun x => ucbScore theta t (s x)

/-- Modelled from the spec: the Interval Estimation selection rule — arg-max
of `ieScore` over the configured alternatives (spec §4.5). -/
noncomputable def ieSelect {k : ℕ} (theta : ℝ) (hk : 0 < k)
    (s : Fin k → BeliefState) : Fin k :=
  selectBest hk fun x => ieScore theta (s x)

/-- Modelled from the spec: one trial of the simulation — the chosen
alternative's belief receives the Bayesian update from its sampled noisy
observation, every other alternative's belief is untouched (spec §4.4
`observe`, §4.1).  `z` is the unit noise draw of this trial. -/
noncomputable def trialStep {k : ℕ} (cfg : Config k) (c : Fin k)
    (truths : Fin k → ℝ) (z : ℝ) (s : Fin k → BeliefState) :
    Fin k → BeliefState :=
  fun x =>
    if x = c then (s x).update (beta_W cfg.sigma_W) (sample (truths c) cfg.sigma_W z)
    else s x

/-- Modelled from the spec: the belief states after `m` trials of one
replication, driven by the selection rule `sel` (which receives the 1-indexed
trial number), the replication's fixed ground truths and the unit noise
stream `obs` (spec §4.5 policy driving loop).  `beliefsAfter … 0` is the
fresh prior initialization performed by `reset()`. -/
noncomputable def beliefsAfter {k : ℕ} (cfg : Config k)
    (sel : ℕ → (Fin k → BeliefState) → Fin k) (truths : Fin k → ℝ)
    (obs : ℕ → ℝ) : ℕ → Fin k → BeliefState
  | 0 => initBelief cfg
  | m + 1 =>
    trialStep cfg (sel (m + 1) (beliefsAfter cfg sel truths obs m)) truths
      (obs m) (beliefsAfter cfg sel truths obs m)

/-- Modelled from the spec: the alternative chosen at the trial with 0-based
index `m` (so the policy sees the 1-indexed trial number `m + 1`). -/
noncomputable def chosenAt {k : ℕ} (cfg : Config k)
    (sel : ℕ → (Fin k → BeliefState) → Fin k) (truths : Fin k → ℝ)
    (obs : ℕ → ℝ) (m : ℕ) : Fin k :=
  sel (m + 1) (beliefsAfter cfg sel truths obs m)

/-- Modelled from the spec: the ground truths of replication `r`, drawn once
per alternative at `reset()` from the configured truth distributions, using
the replication's dedicated block of the explicit random stream: replication
`r` consumes draws `[r*(k+T), (r+1)*(k+T))`, the first `k` for ground truths
(spec §4.3, §5). -/
noncomputable def replicationTruths {k : ℕ} (cfg : Config k) (r : ℕ)
    (rng : ℕ → ℝ) : Fin k → ℝ :=
  fun x => cfg.truthDist x (rng (r * (k + cfg.T) + x))

/-- Modelled from the spec: the unit observation-noise draws of replication
`r` — draw `j` of the replication is element `r*(k+T) + k + j` of the
explicit random stream (spec §4.2, §5). -/
noncomputable def replicationObs {k : ℕ} (cfg : Config k) (r : ℕ)
    (rng : ℕ → ℝ) : ℕ → ℝ :=
  fun j => rng (r * (k + cfg.T) + k + j)

/-- Modelled from the spec: one record of the results sequence — the
replication index (the notebook's column `N`), the 0-based trial index (the
notebook's column `t`), the alternative chosen this trial, and every
alternative's belief state after this trial's update (spec §3 Trial record,
§6 Results interface). -/
structure TrialRecord (k : ℕ) where
  N : ℕ
  t : ℕ
  chosen : Fin k
  beliefs : Fin k → BeliefState

/-- Modelled from the spec: one replication of the driving loop — `reset()`
then `T` trials, each appending the snapshot of all beliefs after its update
(spec §4.5). -/
noncomputable def runReplication {k : ℕ} (cfg : Config k)
    (sel : ℕ → (Fin k → BeliefState) → Fin k) (r : ℕ) (rng : ℕ → ℝ) :
    List (TrialRecord k) :=
  (List.range cfg.T).map fun j =>
    { N := r
      t := j
      chosen := chosenAt cfg sel (replicationTruths cfg r rng)
        (replicationObs cfg r rng) j
      beliefs := beliefsAfter cfg sel (replicationTruths cfg r rng)
        (replicationObs cfg r rng) (j + 1) }

/-- Modelled from the spec: `run(n_replications)` — the concatenation, in
replication order, of every replication's trial records (spec §4.5 policy
driving loop). -/
noncomputable def runResults {k : ℕ} (cfg : Config k)
    (sel : ℕ → (Fin k → BeliefState) → Fin k) (n_replications : ℕ)
    (rng : ℕ → ℝ) : List (TrialRecord k) :=
  (List.range n_replications).flatMap fun r => runReplication cfg sel r rng

/-- Embedded from the notebook (cell 5): the per-drug view of one record —
the `_mu` column is the belief mean, the `_sigma` column is
`1.0 / sqrt(beta)`, the `_N` column is the observation count. -/
noncomputable def TrialRecord.view {k : ℕ} (rec : TrialRecord k) (x : Fin k) :
    ℝ × ℝ × ℕ :=
  ((rec.beliefs x).mu, 1 / Real.sqrt ((rec.beliefs x).beta), (rec.beliefs x).n)

/-- Modelled from the spec: the configuration-error taxonomy rejected at
model/policy construction (spec §4.5 failure semantics, §7). -/
inductive ConfigurationError where
  | nonPositiveSigmaW
  | nonPositivePriorStd
  | negativeTheta
  | emptyAlternativeSet
  | nonPositiveHorizon
  | nonPositiveReplications
deriving DecidableEq

/-- Modelled from the spec: a successfully constructed policy — the validated
model configuration together with the policy parameter `theta` and the number
of replications to run (spec §6 construction interfaces). -/
structure Policy (k : ℕ) where
  cfg : Config k
  theta : ℝ
  n_replications : ℕ

/-- A configuration is valid when none of the six rejection conditions of
spec §4.5 holds: `sigma_W > 0`, every prior standard deviation positive,
`theta ≥ 0`, a nonempty alternative set, `T > 0` and `n_replications > 0`. -/
def validConfig {k : ℕ} (cfg : Config k) (theta : ℝ)
    (n_replications : ℕ) : Prop :=
  0 < cfg.sigma_W ∧ (∀ x, 0 < cfg.prior_std x) ∧ 0 ≤ theta ∧ 0 < k ∧
    0 < cfg.T ∧ 0 < n_replications

open Classical in
/-- Modelled from the spec: model/policy construction — each invalid
configuration is rejected with a `ConfigurationError` before any simulation
work begins, and no Policy object is produced for it (spec §4.5 failure
semantics, §6, §7). -/
noncomputable def construct {k : ℕ} (cfg : Config k) (theta : ℝ)
    (n_replications : ℕ) : Except ConfigurationError (Policy k) :=
  if cfg.sigma_W ≤ 0 then .error .nonPositiveSigmaW
  else if ∃ x, cfg.prior_std x ≤ 0 then .error .nonPositivePriorStd
  else if theta < 0 then .error .negativeTheta
  else if k = 0 then .error .emptyAlternativeSet
  else if cfg.T = 0 then .error .nonPositiveHorizon
  else if n_replications = 0 then .error .nonPositiveReplications
  else .ok { cfg := cfg, theta := theta, n_replications := n_replications }

/-- Modelled from the spec: the usage-error taxonomy of `observe`
(spec §4.4, §7). -/
inductive UsageError where
  | noActiveReplication
  | unknownAlternative
  | horizonExhausted
deriving DecidableEq

/-- Modelled from the spec: the state of the SimulationModel state machine —
Idle (`active = false`) or InReplication (`active = true`) with the current
replication's ground truths, belief states and trial counter (spec §4.4). -/
structure SimState (k : ℕ) where
  active : Bool
  truths : Fin k → ℝ
  beliefs : Fin k → BeliefState
  trial : ℕ

/-- Modelled from the spec: `reset()` — transition to InReplication with
fresh ground truths drawn from the configured distributions (one unit draw
per alternative), beliefs reinitialized from the prior, and the trial counter
set to 0 (spec §4.4). -/
noncomputable def SimState.reset {k : ℕ} (cfg : Config k) (zs : Fin k → ℝ) :
    SimState k :=
  { active := true
    truths := fun x => cfg.truthDist x (zs x)
    beliefs := initBelief cfg
    trial := 0 }

open Classical in
/-- Modelled from the spec: `observe(chosen)` — valid only in InReplication,
only for an alternative inside the configured set (`a < k` under the `Fin k`
encoding of the configured alternatives), and only while the trial counter is
below the horizon `T`; otherwise it raises the corresponding `UsageError`
immediately.  On success it applies the Bayesian update to the chosen
alternative's belief only and increments the trial counter (spec §4.4, §7). -/
noncomputable def observe {k : ℕ} (cfg : Config k) (s : SimState k) (a : ℕ)
    (z : ℝ) : Except UsageError (SimState k) :=
  if s.active = false then .error .noActiveReplication
  else if h : a < k then
    if s.trial < cfg.T then
      .ok { s with
        beliefs := trialStep cfg ⟨a, h⟩ s.truths z s.beliefs
        trial := s.trial + 1 }
    else .error .horizonExhausted
  else .error .unknownAlternative

/-- Modelled from the spec: the caller-visible effect of one `observe` call on
the model state and the recorded trajectory — on success the new state is
adopted and its snapshot appended, on a `UsageError` the call aborts leaving
the state and the already-recorded trajectory untouched (spec §7 Propagation,
observe is atomic on error). -/
noncomputable def observeStep {k : ℕ} (cfg : Config k) (s : SimState k)
    (traj : List (Fin k → BeliefState)) (a : ℕ) (z : ℝ) :
    SimState k × List (Fin k → BeliefState) :=
  match observe cfg s a z with
  | .ok s' => (s', traj ++ [s'.beliefs])
  | .error _ => (s, traj)

/-- Embedded from the notebook (cell 5): the semantics of pandas
`groupby(key)[col].diff()` — scanning the rows in order while remembering,
per key, the last value seen; a row whose key has no earlier row yields NaN
(`none`), any other row yields the numeric difference between its value and
the previous value of its key group. -/
def groupDiff {α : Type} (key : α → ℕ) (val : α → ℤ) :
    (ℕ → Option ℤ) → List α → List (Option ℤ)
  | _, [] => []
  | last, a :: rest =>
    ((last (key a)).map fun v => val a - v) ::
      groupDiff key val (fun n => if n = key a then some (val a) else last n) rest

/-- The per-key last-value memory of `groupDiff` after scanning a list. -/
def lastAfter {α : Type} (key : α → ℕ) (val : α → ℤ) :
    (ℕ → Option ℤ) → List α → ℕ → Option ℤ
  | last, [] => last
  | last, a :: rest =>
    lastAfter key val (fun n => if n = key a then some (val a) else last n) rest

/-- A single-alternative configuration with unit prior standard deviation and
unit observation noise, used to instantiate universally quantified theorems
at a concrete input. -/
noncomputable def cfg1 : Config 1 :=
  { prior_mean := fun _ => 0
    prior_std := fun _ => 1
    truthDist := fun _ z => z
    sigma_W := 1
    T := 2 }

/-- A two-alternative belief state in which alternative 0 has the strictly
higher mean but alternative 1 is still unobserved (`n = 0`). -/
noncomputable def cexBeliefs : Fin 2 → BeliefState :=
  fun x => if x = 0 then { mu := 1, beta := 1, n := 1 } else { mu := 0, beta := 1, n := 0 }

lemma argmax_finRange {k : ℕ} {β : Type} [LinearOrder β] (hk : 0 < k)
    (score : Fin k → β) :
    (List.finRange k).argmax score = some (selectBest hk score) := by
  cases h : (List.finRange k).argmax score with
  | none =>
    rw [List.argmax_eq_none, List.finRange_eq_nil] at h
    omega
  | some m => simp [selectBest, h]

lemma selectBest_is_max {k : ℕ} {β : Type} [LinearOrder β] (hk : 0 < k)
    (score : Fin k → β) (x : Fin k) :
    score x ≤ score (selectBest hk score) :=
  List.le_of_mem_argmax (List.mem_finRange x)
    (Option.mem_def.mpr (argmax_finRange hk score))

lemma selectBest_first_of_ties {k : ℕ} {β : Type} [LinearOrder β] (hk : 0 < k)
    (score : Fin k → β) (x : Fin k)
    (h : score (selectBest hk score) ≤ score x) : selectBest hk score ≤ x := by
  have hidx := List.index_of_argmax
    (Option.mem_def.mpr (argmax_finRange hk score)) (List.mem_finRange x) h
  rwa [List.indexOf_finRange, List.indexOf_finRange, ← Fin.le_def] at hidx

lemma beliefsAfter_succ {k : ℕ} (cfg : Config k)
    (sel : ℕ → (Fin k → BeliefState) → Fin k) (truths : Fin k → ℝ)
    (obs : ℕ → ℝ) (m : ℕ) (x : Fin k) :
    beliefsAfter cfg sel truths obs (m + 1) x =
      if x = chosenAt cfg sel truths obs m then
        (beliefsAfter cfg sel truths obs m x).update (beta_W cfg.sigma_W)
          (sample (truths (chosenAt cfg sel truths obs m)) cfg.sigma_W (obs m))
      else beliefsAfter cfg sel truths obs m x := rfl

lemma beta_W_nonneg (sigma_W : ℝ) : 0 ≤ beta_W sigma_W :=
  one_div_nonneg.mpr (sq_nonneg sigma_W)

lemma beta_W_pos {sigma_W : ℝ} (h : 0 < sigma_W) : 0 < beta_W sigma_W :=
  div_pos one_pos (pow_pos h 2)

lemma beliefsAfter_beta_mono {k : ℕ} (cfg : Config k)
    (sel : ℕ → (Fin k → BeliefState) → Fin k) (truths : Fin k → ℝ)
    (obs : ℕ → ℝ) (x : Fin k) {m₁ m₂ : ℕ} (h : m₁ ≤ m₂) :
    (beliefsAfter cfg sel truths obs m₁ x).beta ≤
      (beliefsAfter cfg sel truths obs m₂ x).beta := by
  induction m₂, h using Nat.le_induction with
  | base => exact le_rfl
  | succ m₂ hm ih =>
    refine ih.trans ?_
    rw [beliefsAfter_succ]
    split
    · exact le_add_of_nonneg_right (beta_W_nonneg _)
    · exact le_rfl

lemma beliefsAfter_n_count {k : ℕ} (cfg : Config k)
    (sel : ℕ → (Fin k → BeliefState) → Fin k) (truths : Fin k → ℝ)
    (obs : ℕ → ℝ) (x : Fin k) : ∀ m : ℕ,
    (beliefsAfter cfg sel truths obs m x).n =
      ((Finset.range m).filter fun j => chosenAt cfg sel truths obs j = x).card
  | 0 => by simp [beliefsAfter, initBelief]
  | m + 1 => by
    rw [Finset.range_succ, Finset.filter_insert, beliefsAfter_succ]
    by_cases hx : x = chosenAt cfg sel truths obs m
    · rw [if_pos hx, if_pos hx.symm,
        Finset.card_insert_of_not_mem (by simp)]
      simp [BeliefState.update,
        beliefsAfter_n_count cfg sel truths obs x m]
    · rw [if_neg hx, if_neg fun h => hx h.symm]
      exact beliefsAfter_n_count cfg sel truths obs x m

/-- C2: in every trial of a replication, the chosen alternative's precision
increases by exactly `1/sigma_W^2` (strictly) and its count by exactly 1,
while every non-chosen alternative's belief is entirely unchanged; hence
`beta` is non-decreasing over the replication and `n` equals the exact number
of trials in which the alternative was selected. -/
theorem C2_trial_invariants {k : ℕ} (cfg : Config k)
    (sel : ℕ → (Fin k → BeliefState) → Fin k) (truths : Fin k → ℝ)
    (obs : ℕ → ℝ) (hsig : 0 < cfg.sigma_W) (m : ℕ) (x : Fin k) :
    (x = chosenAt cfg sel truths obs m →
      (beliefsAfter cfg sel truths obs (m + 1) x).beta =
        (beliefsAfter cfg sel truths obs m x).beta + 1 / cfg.sigma_W ^ 2 ∧
      (beliefsAfter cfg sel truths obs m x).beta <
        (beliefsAfter cfg sel truths obs (m + 1) x).beta ∧
      (beliefsAfter cfg sel truths obs (m + 1) x).n =
        (beliefsAfter cfg sel truths obs m x).n + 1) ∧
    (x ≠ chosenAt cfg sel truths obs m →
      beliefsAfter cfg sel truths obs (m + 1) x =
        beliefsAfter cfg sel truths obs m x) ∧
    (∀ m₁ m₂ : ℕ, m₁ ≤ m₂ →
      (beliefsAfter cfg sel truths obs m₁ x).beta ≤
        (beliefsAfter cfg sel truths obs m₂ x).beta) ∧
    (beliefsAfter cfg sel truths obs m x).n =
      ((Finset.range m).filter fun j => chosenAt cfg sel truths obs j = x).card := by
  refine ⟨fun hx => ?_, fun hx => ?_, fun m₁ m₂ h =>
    beliefsAfter_beta_mono cfg sel truths obs x h,
    beliefsAfter_n_count cfg sel truths obs x m⟩
  · rw [beliefsAfter_succ, if_pos hx]
    refine ⟨rfl, ?_, rfl⟩
    exact lt_add_of_pos_right _ (beta_W_pos hsig)
  · rw [beliefsAfter_succ, if_neg hx]

/-- Witness for C2 on the single-alternative configuration `cfg1` at the
first trial. -/
theorem C2_witness :
    0 < cfg1.sigma_W ∧
    (((0 : Fin 1) = chosenAt cfg1 (fun _ _ => 0) (fun _ => 0) (fun _ => 0) 0 →
      (beliefsAfter cfg1 (fun _ _ => 0) (fun _ => 0) (fun _ => 0) 1 0).beta =
        (beliefsAfter cfg1 (fun _ _ => 0) (fun _ => 0) (fun _ => 0) 0 0).beta +
          1 / cfg1.sigma_W ^ 2 ∧
      (beliefsAfter cfg1 (fun _ _ => 0) (fun _ => 0) (fun _ => 0) 0 0).beta <
        (beliefsAfter cfg1 (fun _ _ => 0) (fun _ => 0) (fun _ => 0) 1 0).beta ∧
      (beliefsAfter cfg1 (fun _ _ => 0) (fun _ => 0) (fun _ => 0) 1 0).n =
        (beliefsAfter cfg1 (fun _ _ => 0) (fun _ => 0) (fun _ => 0) 0 0).n + 1) ∧
    ((0 : Fin 1) ≠ chosenAt cfg1 (fun _ _ => 0) (fun _ => 0) (fun _ => 0) 0 →
      beliefsAfter cfg1 (fun _ _ => 0) (fun _ => 0) (fun _ => 0) 1 0 =
        beliefsAfter cfg1 (fun _ _ => 0) (fun _ => 0) (fun _ => 0) 0 0) ∧
    (∀ m₁ m₂ : ℕ, m₁ ≤ m₂ →
      (beliefsAfter cfg1 (fun _ _ => 0) (fun _ => 0) (fun _ => 0) m₁ 0).beta ≤
        (beliefsAfter cfg1 (fun _ _ => 0) (fun _ => 0) (fun _ => 0) m₂ 0).beta) ∧
    (beliefsAfter cfg1 (fun _ _ => 0) (fun _ => 0) (fun _ => 0) 0 0).n =
      ((Finset.range 0).filter
        fun j => chosenAt cfg1 (fun _ _ => 0) (fun _ => 0) (fun _ => 0) j = 0).card) :=
  ⟨by norm_num [cfg1],
    C2_trial_invariants cfg1 (fun _ _ => 0) (fun _ => 0) (fun _ => 0)
      (by norm_num [cfg1]) 0 0⟩

lemma ucbScore_eq_top_iff (theta : ℝ) (t : ℕ) (b : BeliefState) :
    ucbScore theta t b = ⊤ ↔ b.n = 0 := by
  unfold ucbScore
  split
  · next h => exact iff_of_true rfl h
  · next h => exact iff_of_false WithTop.coe_ne_top h

lemma ucbScore_of_ne_zero (theta : ℝ) (t : ℕ) {b : BeliefState}
    (h : b.n ≠ 0) :
    ucbScore theta t b =
      ((b.mu + theta * Real.sqrt (Real.log t / b.n) : ℝ) : WithTop ℝ) := by
  rw [ucbScore, if_neg h]

lemma ucbScore_zero_theta (t : ℕ) {b : BeliefState} (h : b.n ≠ 0) :
    ucbScore 0 t b = ((b.mu : ℝ) : WithTop ℝ) := by
  rw [ucbScore_of_ne_zero 0 t h, zero_mul, add_zero]

/-- C3 counterexample: with `theta = 0`, on the two-alternative state
`cexBeliefs` (alternative 0: higher mean, already tried; alternative 1: lower
mean, still unobserved) UCB selects the unobserved alternative, whose mean is
strictly below alternative 0's — so "theta = 0 always selects the alternative
with the current highest mu" fails as stated. -/
theorem C3_counterexample :
    (cexBeliefs (ucbSelect 0 (by norm_num) 1 cexBeliefs)).mu <
      (cexBeliefs 0).mu := by
  have hsel : ucbSelect 0 (by norm_num : 0 < 2) 1 cexBeliefs = 1 := by
    unfold ucbSelect selectBest
    have hfr : List.finRange 2 = [0, 1] := by decide
    rw [hfr, List.argmax_cons, List.argmax_singleton]
    have h0 : ucbScore 0 1 (cexBeliefs 0) =
        ((1 + 0 * Real.sqrt (Real.log 1 / 1) : ℝ) : WithTop ℝ) := by
      rw [show cexBeliefs 0 = { mu := 1, beta := 1, n := 1 } from rfl]
      rw [ucbScore_of_ne_zero 0 1 (by norm_num)]
      norm_num
    have h1 : ucbScore 0 1 (cexBeliefs 1) = ⊤ := by
      rw [ucbScore_eq_top_iff]
      rfl
    simp only [h0, h1]
    rw [if_pos (WithTop.coe_lt_top _)]
    rfl
  rw [hsel]
  show (0 : ℝ) < 1
  norm_num

/-- C3 (amended): the UCB policy selects the arg-max of the score
`mu + theta * sqrt (ln t / n)` over the configured alternatives, scoring an
unobserved alternative (`n = 0`) as infinitely attractive without ever forming
`ln t / 0`, breaking ties by the first alternative in the configured order;
and with `theta = 0` it selects the alternative with the current highest `mu`
whenever every alternative has `n > 0`. -/
theorem C3_ucb_selection (k : ℕ) (hk : 0 < k) (theta : ℝ) (t : ℕ)
    (s : Fin k → BeliefState) (ht : 1 ≤ t) (htheta : 0 ≤ theta) :
    (∀ x, ucbScore theta t (s x) ≤ ucbScore theta t (s (ucbSelect theta hk t s))) ∧
    (∀ x, ucbScore theta t (s (ucbSelect theta hk t s)) ≤ ucbScore theta t (s x) →
      ucbSelect theta hk t s ≤ x) ∧
    (∀ x, (s x).n = 0 → ucbScore theta t (s x) = ⊤) ∧
    (∀ x, (s x).n ≠ 0 → ucbScore theta t (s x) =
      (((s x).mu + theta * Real.sqrt (Real.log t / (s x).n) : ℝ) : WithTop ℝ)) ∧
    (theta = 0 → (∀ x, 0 < (s x).n) →
      ∀ x, (s x).mu ≤ (s (ucbSelect theta hk t s)).mu) := by
  unfold ucbSelect
  refine ⟨fun x => selectBest_is_max hk (fun y => ucbScore theta t (s y)) x,
    fun x h => selectBest_first_of_ties hk (fun y => ucbScore theta t (s y)) x h,
    fun x hx => (ucbScore_eq_top_iff theta t (s x)).mpr hx,
    fun x hx => ucbScore_of_ne_zero theta t hx,
    fun h0 hn x => ?_⟩
  subst h0
  have hmax := selectBest_is_max hk (fun x => ucbScore 0 t (s x)) x
  rw [ucbScore_zero_theta t (hn x).ne',
    ucbScore_zero_theta t
      (hn (selectBest hk fun y => ucbScore 0 t (s y))).ne'] at hmax
  exact_mod_cast hmax

/-- Witness for C3 (amended) on a single alternative at trial 1 with
`theta = 0`. -/
theorem C3_witness :
    1 ≤ 1 ∧ (0 : ℝ) ≤ 0 ∧
    ((∀ _ : Fin 1, ucbScore 0 1 (cexBeliefs 0) ≤ ucbScore 0 1 (cexBeliefs 0)) ∧
    (∀ x : Fin 1, ucbScore 0 1 (cexBeliefs 0) ≤ ucbScore 0 1 (cexBeliefs 0) →
      ucbSelect 0 Nat.one_pos 1 (fun _ : Fin 1 => cexBeliefs 0) ≤ x) ∧
    (∀ _ : Fin 1, (cexBeliefs 0).n = 0 → ucbScore 0 1 (cexBeliefs 0) = ⊤) ∧
    (∀ _ : Fin 1, (cexBeliefs 0).n ≠ 0 → ucbScore 0 1 (cexBeliefs 0) =
      (((cexBeliefs 0).mu +
        0 * Real.sqrt (Real.log ((1 : ℕ) : ℝ) / ((cexBeliefs 0).n : ℝ)) : ℝ) :
          WithTop ℝ)) ∧
    ((0 : ℝ) = 0 → (∀ _ : Fin 1, 0 < (cexBeliefs 0).n) →
      ∀ _ : Fin 1, (cexBeliefs 0).mu ≤ (cexBeliefs 0).mu)) :=
  ⟨le_refl 1, le_refl 0, by
    exact C3_ucb_selection 1 Nat.one_pos 0 1 (fun _ => cexBeliefs 0)
      (le_refl 1) (le_refl 0)⟩

lemma beliefsAfter_n_le_succ {k : ℕ} (cfg : Config k)
    (sel : ℕ → (Fin k → BeliefState) → Fin k) (truths : Fin k → ℝ)
    (obs : ℕ → ℝ) (m : ℕ) (x : Fin k) :
    (beliefsAfter cfg sel truths obs m x).n ≤
      (beliefsAfter cfg sel truths obs (m + 1) x).n := by
  rw [beliefsAfter_succ]
  split
  · exact Nat.le_succ _
  · exact le_rfl

lemma ucb_exploration_inv {k : ℕ} (cfg : Config k) (theta : ℝ) (hk : 0 < k)
    (truths : Fin k → ℝ) (obs : ℕ → ℝ) : ∀ m : ℕ,
    (∃ x, (beliefsAfter cfg (fun t s => ucbSelect theta hk t s) truths obs m x).n = 0) →
    ∀ x, (beliefsAfter cfg (fun t s => ucbSelect theta hk t s) truths obs m x).n ≤ 1
  | 0, _, x => by simp [beliefsAfter, initBelief]
  | m + 1, ⟨x₀, hx₀⟩, x => by
    have hx₀m : (beliefsAfter cfg (fun t s => ucbSelect theta hk t s) truths obs m x₀).n = 0 :=
      Nat.le_zero.mp (hx₀ ▸ beliefsAfter_n_le_succ cfg _ truths obs m x₀)
    have hall := ucb_exploration_inv cfg theta hk truths obs m ⟨x₀, hx₀m⟩
    have hctop : ucbScore theta (m + 1)
        (beliefsAfter cfg (fun t s => ucbSelect theta hk t s) truths obs m
          (chosenAt cfg (fun t s => ucbSelect theta hk t s) truths obs m)) = ⊤ := by
      refine top_le_iff.mp ?_
      calc (⊤ : WithTop ℝ)
          = ucbScore theta (m + 1)
              (beliefsAfter cfg (fun t s => ucbSelect theta hk t s) truths obs m x₀) :=
            ((ucbScore_eq_top_iff _ _ _).mpr hx₀m).symm
        _ ≤ _ := selectBest_is_max hk
              (fun y => ucbScore theta (m + 1)
                (beliefsAfter cfg (fun t s => ucbSelect theta hk t s) truths obs m y)) x₀
    have hcn : (beliefsAfter cfg (fun t s => ucbSelect theta hk t s) truths obs m
        (chosenAt cfg (fun t s => ucbSelect theta hk t s) truths obs m)).n = 0 :=
      (ucbScore_eq_top_iff _ _ _).mp hctop
    rw [beliefsAfter_succ]
    split
    · next heq =>
      rw [heq, BeliefState.update, hcn]
    · exact hall x

/-- C4: under UCB with any `theta ≥ 0`, no alternative reaches its second
observation while some alternative is still unobserved — in every reachable
state of a replication, if any alternative has `n ≥ 2` then every alternative
has `n ≥ 1`. -/
theorem C4_forced_initial_exploration {k : ℕ} (cfg : Config k) (theta : ℝ)
    (hk : 0 < k) (htheta : 0 ≤ theta) (truths : Fin k → ℝ) (obs : ℕ → ℝ)
    (m : ℕ)
    (h2 : ∃ x, 2 ≤ (beliefsAfter cfg (fun t s => ucbSelect theta hk t s) truths obs m x).n) :
    ∀ x, 1 ≤ (beliefsAfter cfg (fun t s => ucbSelect theta hk t s) truths obs m x).n := by
  intro x
  by_contra hx
  obtain ⟨y, hy⟩ := h2
  have := ucb_exploration_inv cfg theta hk truths obs m ⟨x, by omega⟩ y
  omega

/-- Witness for C4 on the single-alternative configuration `cfg1` after two
trials, where the unique alternative has been observed twice. -/
theorem C4_witness :
    (0 : ℝ) ≤ 0 ∧
    (∃ x, 2 ≤ (beliefsAfter cfg1
      (fun t s => ucbSelect 0 Nat.one_pos t s) (fun _ => 0) (fun _ => 0) 2 x).n) ∧
    ∀ x, 1 ≤ (beliefsAfter cfg1
      (fun t s => ucbSelect 0 Nat.one_pos t s) (fun _ => 0) (fun _ => 0) 2 x).n := by
  have hn : ∀ j : ℕ, chosenAt cfg1
      (fun t s => ucbSelect 0 Nat.one_pos t s) (fun _ => 0) (fun _ => 0) j = 0 :=
    fun j => Fin.eq_zero _
  have h2 : (beliefsAfter cfg1
      (fun t s => ucbSelect 0 Nat.one_pos t s) (fun _ => 0) (fun _ => 0) 2 0).n = 2 := by
    rw [beliefsAfter_n_count]
    simp [hn]
  refine ⟨le_refl 0, ⟨0, by omega⟩, ?_⟩
  exact C4_forced_initial_exploration cfg1 0 Nat.one_pos (le_refl 0)
    (fun _ => 0) (fun _ => 0) 2 ⟨0, by omega⟩

lemma beliefsAfter_beta_pos {k : ℕ} (cfg : Config k)
    (sel : ℕ → (Fin k → BeliefState) → Fin k) (truths : Fin k → ℝ)
    (obs : ℕ → ℝ) (hsig : 0 < cfg.sigma_W)
    (hstd : ∀ x, 0 < cfg.prior_std x) : ∀ (m : ℕ) (x : Fin k),
    0 < (beliefsAfter cfg sel truths obs m x).beta
  | 0, x => div_pos one_pos (pow_pos (hstd x) 2)
  | m + 1, x => by
    rw [beliefsAfter_succ]
    split
    · exact add_pos (beliefsAfter_beta_pos cfg sel truths obs hsig hstd m x)
        (beta_W_pos hsig)
    · exact beliefsAfter_beta_pos cfg sel truths obs hsig hstd m x

/-- C5: under the construction preconditions `sigma_W > 0` and positive prior
standard deviations, every precision value reachable during a replication is
strictly positive (the prior precision `1/prior_std^2` is positive and each
update adds the positive `1/sigma_W^2`), so the Bayesian update and the
Interval Estimation score `mu + theta / sqrt beta` never divide by zero: the
square root of every reachable `beta` is itself strictly positive. -/
theorem C5_precision_always_positive {k : ℕ} (cfg : Config k)
    (sel : ℕ → (Fin k → BeliefState) → Fin k) (truths : Fin k → ℝ)
    (obs : ℕ → ℝ) (hsig : 0 < cfg.sigma_W)
    (hstd : ∀ x, 0 < cfg.prior_std x) (m : ℕ) (x : Fin k) :
    0 < (beliefsAfter cfg sel truths obs m x).beta ∧
    0 < Real.sqrt (beliefsAfter cfg sel truths obs m x).beta := by
  have h := beliefsAfter_beta_pos cfg sel truths obs hsig hstd m x
  exact ⟨h, Real.sqrt_pos.mpr h⟩

/-- Witness for C5 on the single-alternative configuration `cfg1` after one
trial. -/
theorem C5_witness :
    0 < cfg1.sigma_W ∧ (∀ x, 0 < cfg1.prior_std x) ∧
    (0 < (beliefsAfter cfg1 (fun _ _ => 0) (fun _ => 0) (fun _ => 0) 1 0).beta ∧
     0 < Real.sqrt (beliefsAfter cfg1 (fun _ _ => 0) (fun _ => 0) (fun _ => 0) 1 0).beta) :=
  ⟨by norm_num [cfg1], fun x => by norm_num [cfg1],
    C5_precision_always_positive cfg1 (fun _ _ => 0) (fun _ => 0) (fun _ => 0)
      (by norm_num [cfg1]) (fun x => by norm_num [cfg1]) 1 0⟩

/-- C6: construction rejects exactly the invalid configurations — non-positive
`sigma_W`, a non-positive prior standard deviation, `theta < 0`, an empty
alternative set, `T = 0` or `n_replications = 0` — with a
`ConfigurationError` and yields no Policy object for them, while every valid
configuration constructs the Policy object unchanged. -/
theorem C6_construction_validation {k : ℕ} (cfg : Config k) (theta : ℝ)
    (n_replications : ℕ) :
    (validConfig cfg theta n_replications →
      construct cfg theta n_replications =
        .ok { cfg := cfg, theta := theta, n_replications := n_replications }) ∧
    (¬ validConfig cfg theta n_replications →
      ∃ e, construct cfg theta n_replications = .error e) ∧
    (∀ p, construct cfg theta n_replications = .ok p →
      validConfig cfg theta n_replications ∧
        p = { cfg := cfg, theta := theta, n_replications := n_replications }) := by
  unfold construct validConfig
  split_ifs with h1 h2 h3 h4 h5 h6
  · exact ⟨fun hv => absurd hv.1 (not_lt.mpr h1),
      fun _ => ⟨_, rfl⟩, fun p hp => by cases hp⟩
  · obtain ⟨x, hx⟩ := h2
    exact ⟨fun hv => absurd (hv.2.1 x) (not_lt.mpr hx),
      fun _ => ⟨_, rfl⟩, fun p hp => by cases hp⟩
  · exact ⟨fun hv => absurd hv.2.2.1 (not_le.mpr h3),
      fun _ => ⟨_, rfl⟩, fun p hp => by cases hp⟩
  · exact ⟨fun hv => absurd hv.2.2.2.1 (by omega),
      fun _ => ⟨_, rfl⟩, fun p hp => by cases hp⟩
  · exact ⟨fun hv => absurd hv.2.2.2.2.1 (by omega),
      fun _ => ⟨_, rfl⟩, fun p hp => by cases hp⟩
  · exact ⟨fun hv => absurd hv.2.2.2.2.2 (by omega),
      fun _ => ⟨_, rfl⟩, fun p hp => by cases hp⟩
  · push_neg at h2
    refine ⟨fun _ => rfl, fun hnv => absurd ?_ hnv, fun p hp => ?_⟩
    · exact ⟨not_le.mp h1, h2, not_lt.mp h3,
        Nat.pos_of_ne_zero h4, Nat.pos_of_ne_zero h5, Nat.pos_of_ne_zero h6⟩
    · refine ⟨⟨not_le.mp h1, h2, not_lt.mp h3,
        Nat.pos_of_ne_zero h4, Nat.pos_of_ne_zero h5, Nat.pos_of_ne_zero h6⟩, ?_⟩
      cases hp
      rfl

/-- Witness for C6 on the valid configuration `cfg1` with `theta = 1` and one
replication. -/
theorem C6_witness :
    validConfig cfg1 1 1 ∧
    construct cfg1 1 1 = .ok { cfg := cfg1, theta := 1, n_replications := 1 } := by
  have hv : validConfig cfg1 1 1 := by
    refine ⟨by norm_num [cfg1], fun x => by norm_num [cfg1], by norm_num,
      Nat.one_pos, by norm_num [cfg1], Nat.one_pos⟩
  exact ⟨hv, (C6_construction_validation cfg1 1 1).1 hv⟩

/-- C7: `observe` raises a `UsageError` exactly when there is no active
replication, the alternative lies outside the configured set, or the trial
horizon is exhausted; and a failed call is atomic — it leaves the model state
and the recorded trajectory untouched. -/
theorem C7_observe_usage_errors {k : ℕ} (cfg : Config k) (s : SimState k)
    (a : ℕ) (z : ℝ) (traj : List (Fin k → BeliefState)) :
    ((∃ e, observe cfg s a z = .error e) ↔
      (s.active = false ∨ k ≤ a ∨ cfg.T ≤ s.trial)) ∧
    (∀ e, observe cfg s a z = .error e →
      observeStep cfg s traj a z = (s, traj)) := by
  constructor
  · unfold observe
    split_ifs with h1 h2 h3
    · exact iff_of_true ⟨_, rfl⟩ (Or.inl h1)
    · refine iff_of_false ?_ ?_
      · rintro ⟨e, he⟩
        exact he
      · push_neg
        exact ⟨h1, h2, h3⟩
    · exact iff_of_true ⟨_, rfl⟩ (Or.inr (Or.inr (not_lt.mp h3)))
    · exact iff_of_true ⟨_, rfl⟩ (Or.inr (Or.inl (not_lt.mp h2)))
  · intro e he
    unfold observeStep
    rw [he]

/-- Witness for C7: on an Idle model state the `observe` call fails and the
state/trajectory pair is unchanged. -/
theorem C7_witness :
    ((∃ e, observe cfg1 (SimState.mk false (fun _ => 0) (initBelief cfg1) 0) 0 0 = .error e) ↔
      ((SimState.mk false (fun _ => 0) (initBelief cfg1) 0).active = false ∨
        1 ≤ 0 ∨ cfg1.T ≤ (SimState.mk false (fun _ => 0) (initBelief cfg1) 0).trial)) ∧
    (∀ e, observe cfg1 (SimState.mk false (fun _ => 0) (initBelief cfg1) 0) 0 0 = .error e →
      observeStep cfg1 (SimState.mk false (fun _ => 0) (initBelief cfg1) 0) [] 0 0 =
        (SimState.mk false (fun _ => 0) (initBelief cfg1) 0, [])) :=
  C7_observe_usage_errors cfg1 (SimState.mk false (fun _ => 0) (initBelief cfg1) 0) 0 0 []

lemma beliefsAfter_congr_obs {k : ℕ} (cfg : Config k)
    (sel : ℕ → (Fin k → BeliefState) → Fin k) (truths : Fin k → ℝ)
    {obs1 obs2 : ℕ → ℝ} : ∀ m : ℕ, (∀ j < m, obs1 j = obs2 j) →
    beliefsAfter cfg sel truths obs1 m = beliefsAfter cfg sel truths obs2 m
  | 0, _ => rfl
  | m + 1, h => by
    simp only [beliefsAfter]
    rw [beliefsAfter_congr_obs cfg sel truths m fun j hj => h j (by omega),
      h m (by omega)]

lemma beliefsAfter_congr {k : ℕ} (cfg : Config k)
    (sel : ℕ → (Fin k → BeliefState) → Fin k) {truths1 truths2 : Fin k → ℝ}
    {obs1 obs2 : ℕ → ℝ} (htr : truths1 = truths2) (m : ℕ)
    (hobs : ∀ j < m, obs1 j = obs2 j) :
    beliefsAfter cfg sel truths1 obs1 m = beliefsAfter cfg sel truths2 obs2 m := by
  subst htr
  exact beliefsAfter_congr_obs cfg sel truths1 m hobs

lemma runReplication_congr {k : ℕ} (cfg : Config k)
    (sel : ℕ → (Fin k → BeliefState) → Fin k) (r : ℕ) {rng1 rng2 : ℕ → ℝ}
    (h : ∀ i < (r + 1) * (k + cfg.T), rng1 i = rng2 i) :
    runReplication cfg sel r rng1 = runReplication cfg sel r rng2 := by
  have htr : replicationTruths cfg r rng1 = replicationTruths cfg r rng2 := by
    funext x
    unfold replicationTruths
    rw [h _ (by have hx : (x : ℕ) < k := x.isLt; nlinarith [hx])]
  unfold runReplication
  refine List.map_congr_left fun j hj => ?_
  rw [List.mem_range] at hj
  have hobs : ∀ i < j + 1,
      replicationObs cfg r rng1 i = replicationObs cfg r rng2 i := by
    intro i hi
    unfold replicationObs
    rw [h _ (by nlinarith [hi, hj])]
  unfold chosenAt
  rw [beliefsAfter_congr cfg sel htr j fun i hi => hobs i (by omega),
    beliefsAfter_congr cfg sel htr (j + 1) hobs]

/-- C8: the whole run is a pure function of the configuration and the
explicit random stream — two runs whose streams agree on the finitely many
draws the run consumes (`n_replications * (k + T)` of them, `k` ground-truth
draws plus `T` observation draws per replication) produce identical results
sequences; in particular identical configuration and identical seed give
byte-identical results. -/
theorem C8_seed_reproducibility {k : ℕ} (cfg : Config k)
    (sel : ℕ → (Fin k → BeliefState) → Fin k) (n_replications : ℕ)
    (rng1 rng2 : ℕ → ℝ)
    (h : ∀ i < n_replications * (k + cfg.T), rng1 i = rng2 i) :
    runResults cfg sel n_replications rng1 =
      runResults cfg sel n_replications rng2 := by
  unfold runResults
  rw [List.flatMap_def, List.flatMap_def]
  refine congrArg List.flatten (List.map_congr_left fun r hr => ?_)
  rw [List.mem_range] at hr
  refine runReplication_congr cfg sel r fun i hi => h i ?_
  have : (r + 1) * (k + cfg.T) ≤ n_replications * (k + cfg.T) :=
    Nat.mul_le_mul_right _ hr
  omega

/-- Witness for C8: two distinct streams agreeing on the consumed prefix give
the same results on `cfg1`. -/
theorem C8_witness :
    (∀ i < 1 * (1 + cfg1.T), (if i < 3 then (1 : ℝ) else 0) = 1) ∧
    runResults cfg1 (fun _ _ => 0) 1 (fun i => if i < 3 then (1 : ℝ) else 0) =
      runResults cfg1 (fun _ _ => 0) 1 (fun _ => 1) := by
  have hagree : ∀ i < 1 * (1 + cfg1.T), (if i < 3 then (1 : ℝ) else 0) = 1 := by
    intro i hi
    have hT : cfg1.T = 2 := rfl
    rw [if_pos (by omega)]
  exact ⟨hagree,
    C8_seed_reproducibility cfg1 (fun _ _ => 0) 1 _ _ hagree⟩

lemma flatMap_blocks_length {β : Type} (blocks : ℕ → List β) (T : ℕ)
    (hlen : ∀ r, (blocks r).length = T) : ∀ nrep : ℕ,
    ((List.range nrep).flatMap blocks).length = nrep * T
  | 0 => by simp
  | nrep + 1 => by
    rw [List.range_succ, List.flatMap_append, List.length_append,
      flatMap_blocks_length blocks T hlen nrep]
    simp [hlen]
    ring

lemma flatMap_blocks_getElem {β : Type} (blocks : ℕ → List β) (T : ℕ)
    (hlen : ∀ r, (blocks r).length = T) : ∀ nrep r j : ℕ, r < nrep → j < T →
    ((List.range nrep).flatMap blocks)[r * T + j]? = (blocks r)[j]?
  | 0, r, j, hr, hj => absurd hr (by omega)
  | nrep + 1, r, j, hr, hj => by
    rw [List.range_succ, List.flatMap_append]
    by_cases hrn : r < nrep
    · rw [List.getElem?_append, if_pos ?_]
      · exact flatMap_blocks_getElem blocks T hlen nrep r j hrn hj
      · rw [flatMap_blocks_length blocks T hlen nrep]
        have h1 : (r + 1) * T ≤ nrep * T := Nat.mul_le_mul_right _ hrn
        have h2 : r * T + j < (r + 1) * T := by
          rw [add_one_mul]
          omega
        omega
    · have hreq : r = nrep := by omega
      subst hreq
      rw [List.getElem?_append_right ?_]
      · rw [flatMap_blocks_length blocks T hlen r]
        have : r * T + j - r * T = j := by omega
        rw [this]
        simp
      · rw [flatMap_blocks_length blocks T hlen r]
        omega

lemma runReplication_length {k : ℕ} (cfg : Config k)
    (sel : ℕ → (Fin k → BeliefState) → Fin k) (r : ℕ) (rng : ℕ → ℝ) :
    (runReplication cfg sel r rng).length = cfg.T := by
  simp [runReplication]

lemma runReplication_getElem {k : ℕ} (cfg : Config k)
    (sel : ℕ → (Fin k → BeliefState) → Fin k) (r : ℕ) (rng : ℕ → ℝ)
    (j : ℕ) (hj : j < cfg.T) :
    (runReplication cfg sel r rng)[j]? = some
      { N := r
        t := j
        chosen := chosenAt cfg sel (replicationTruths cfg r rng)
          (replicationObs cfg r rng) j
        beliefs := beliefsAfter cfg sel (replicationTruths cfg r rng)
          (replicationObs cfg r rng) (j + 1) } := by
  unfold runReplication
  rw [List.getElem?_map, List.getElem?_range hj]
  rfl

lemma runResults_getElem {k : ℕ} (cfg : Config k)
    (sel : ℕ → (Fin k → BeliefState) → Fin k) (nrep : ℕ) (rng : ℕ → ℝ)
    (r j : ℕ) (hr : r < nrep) (hj : j < cfg.T) :
    (runResults cfg sel nrep rng)[r * cfg.T + j]? =
      (runReplication cfg sel r rng)[j]? :=
  flatMap_blocks_getElem (fun r => runReplication cfg sel r rng) cfg.T
    (fun r => runReplication_length cfg sel r rng) nrep r j hr hj

lemma chosenAt_iff_n_incr {k : ℕ} (cfg : Config k)
    (sel : ℕ → (Fin k → BeliefState) → Fin k) (truths : Fin k → ℝ)
    (obs : ℕ → ℝ) (m : ℕ) (x : Fin k) :
    (chosenAt cfg sel truths obs m = x ↔
      (beliefsAfter cfg sel truths obs (m + 1) x).n =
        (beliefsAfter cfg sel truths obs m x).n + 1) ∧
    (chosenAt cfg sel truths obs m ≠ x →
      (beliefsAfter cfg sel truths obs (m + 1) x).n =
        (beliefsAfter cfg sel truths obs m x).n) := by
  have hne : chosenAt cfg sel truths obs m ≠ x →
      (beliefsAfter cfg sel truths obs (m + 1) x).n =
        (beliefsAfter cfg sel truths obs m x).n := by
    intro h
    rw [beliefsAfter_succ, if_neg fun hx => h hx.symm]
  refine ⟨⟨fun h => ?_, fun h => ?_⟩, hne⟩
  · rw [beliefsAfter_succ, if_pos h.symm]
    rfl
  · by_contra hch
    rw [hne hch] at h
    omega

/-- C9: the record at position `r*T + j` of the results sequence is tagged
with replication index `r` and trial index `j`, exposes for every alternative
the triple `(mean, std_dev, n)` with `std_dev = 1/sqrt(beta)`, and for every
trial after the first of its replication, whether an alternative was chosen
this trial is exactly whether its `n` exceeds by one its `n` in the previous
trial record of the same replication (and is unchanged otherwise). -/
theorem C9_results_interface {k : ℕ} (cfg : Config k)
    (sel : ℕ → (Fin k → BeliefState) → Fin k) (nrep : ℕ) (rng : ℕ → ℝ)
    (r j : ℕ) (x : Fin k) (hr : r < nrep) (hj : j < cfg.T) :
    ∃ rec : TrialRecord k,
      (runResults cfg sel nrep rng)[r * cfg.T + j]? = some rec ∧
      rec.N = r ∧ rec.t = j ∧
      rec.view x =
        ((rec.beliefs x).mu, 1 / Real.sqrt ((rec.beliefs x).beta),
          (rec.beliefs x).n) ∧
      (1 ≤ j → ∃ prev : TrialRecord k,
        (runResults cfg sel nrep rng)[r * cfg.T + (j - 1)]? = some prev ∧
        (rec.chosen = x ↔ (rec.beliefs x).n = (prev.beliefs x).n + 1) ∧
        (rec.chosen ≠ x → (rec.beliefs x).n = (prev.beliefs x).n)) := by
  refine ⟨_, by rw [runResults_getElem cfg sel nrep rng r j hr hj,
      runReplication_getElem cfg sel r rng j hj], rfl, rfl, rfl, fun hj1 => ?_⟩
  refine ⟨_, by rw [runResults_getElem cfg sel nrep rng r (j - 1) hr (by omega),
      runReplication_getElem cfg sel r rng (j - 1) (by omega)], ?_, ?_⟩
  · have hj' : j - 1 + 1 = j := by omega
    rw [hj']
    exact (chosenAt_iff_n_incr cfg sel _ _ j x).1
  · have hj' : j - 1 + 1 = j := by omega
    rw [hj']
    exact (chosenAt_iff_n_incr cfg sel _ _ j x).2

/-- Witness for C9 on `cfg1`, one replication, second trial record. -/
theorem C9_witness :
    0 < 1 ∧ 1 < cfg1.T ∧
    ∃ rec : TrialRecord 1,
      (runResults cfg1 (fun _ _ => 0) 1 (fun _ => 0))[0 * cfg1.T + 1]? = some rec ∧
      rec.N = 0 ∧ rec.t = 1 ∧
      rec.view 0 =
        ((rec.beliefs 0).mu, 1 / Real.sqrt ((rec.beliefs 0).beta),
          (rec.beliefs 0).n) ∧
      (1 ≤ 1 → ∃ prev : TrialRecord 1,
        (runResults cfg1 (fun _ _ => 0) 1 (fun _ => 0))[0 * cfg1.T + (1 - 1)]? = some prev ∧
        (rec.chosen = 0 ↔ (rec.beliefs 0).n = (prev.beliefs 0).n + 1) ∧
        (rec.chosen ≠ 0 → (rec.beliefs 0).n = (prev.beliefs 0).n)) :=
  ⟨Nat.one_pos, by norm_num [cfg1],
    C9_results_interface cfg1 (fun _ _ => 0) 1 (fun _ => 0) 0 1 0 Nat.one_pos
      (by norm_num [cfg1])⟩

lemma groupDiff_append {α : Type} (key : α → ℕ) (val : α → ℤ) :
    ∀ (l1 l2 : List α) (last : ℕ → Option ℤ),
    groupDiff key val last (l1 ++ l2) =
      groupDiff key val last l1 ++
        groupDiff key val (lastAfter key val last l1) l2
  | [], _, _ => rfl
  | a :: l1, l2, last => by
    simp only [List.cons_append, groupDiff, lastAfter, List.append_eq]
    rw [groupDiff_append key val l1 l2 _]

lemma lastAfter_append {α : Type} (key : α → ℕ) (val : α → ℤ) :
    ∀ (l1 l2 : List α) (last : ℕ → Option ℤ),
    lastAfter key val last (l1 ++ l2) =
      lastAfter key val (lastAfter key val last l1) l2
  | [], _, _ => rfl
  | a :: l1, l2, last => by
    simp only [List.cons_append, lastAfter, List.append_eq]
    rw [lastAfter_append key val l1 l2 _]

lemma lastAfter_not_mem {α : Type} (key : α → ℕ) (val : α → ℤ) (n : ℕ) :
    ∀ (l : List α) (last : ℕ → Option ℤ), (∀ a ∈ l, key a ≠ n) →
    lastAfter key val last l n = last n
  | [], _, _ => rfl
  | a :: l, last, h => by
    simp only [lastAfter]
    rw [lastAfter_not_mem key val n l _ fun b hb => h b (List.mem_cons_of_mem a hb)]
    exact if_neg fun heq => h a (List.mem_cons_self a l) heq.symm

lemma lastAfter_map_range {α : Type} (key : α → ℕ) (val : α → ℤ) (rkey : ℕ) :
    ∀ (n : ℕ) (g : ℕ → α), (∀ j, key (g j) = rkey) → ∀ last : ℕ → Option ℤ,
    lastAfter key val last ((List.range n).map g) rkey =
      if n = 0 then last rkey else some (val (g (n - 1)))
  | 0, _, _, _ => rfl
  | n + 1, g, hkey, last => by
    rw [List.range_succ, List.map_append, lastAfter_append]
    simp only [List.map_cons, List.map_nil, lastAfter]
    rw [hkey n, if_pos rfl, if_neg (Nat.succ_ne_zero n), Nat.add_sub_cancel]

lemma groupDiff_map_range {α : Type} (key : α → ℕ) (val : α → ℤ) (rkey : ℕ) :
    ∀ (n : ℕ) (g : ℕ → α), (∀ j, key (g j) = rkey) → ∀ last : ℕ → Option ℤ,
    groupDiff key val last ((List.range n).map g) =
      (List.range n).map fun j =>
        if j = 0 then (last rkey).map fun v => val (g 0) - v
        else some (val (g j) - val (g (j - 1)))
  | 0, _, _, _ => rfl
  | n + 1, g, hkey, last => by
    rw [List.range_succ, List.map_append, List.map_append,
      groupDiff_append,
      groupDiff_map_range key val rkey n g hkey last]
    congr 1
    simp only [List.map_cons, List.map_nil, groupDiff]
    rw [hkey n]
    have hlast : lastAfter key val last ((List.range n).map g) rkey =
        if n = 0 then last rkey else some (val (g (n - 1))) :=
      lastAfter_map_range key val rkey n g hkey last
    rw [hlast]
    by_cases hn0 : n = 0
    · subst hn0
      rfl
    · rw [if_neg hn0, if_neg hn0]
      rfl

lemma runResults_N_lt {k : ℕ} (cfg : Config k)
    (sel : ℕ → (Fin k → BeliefState) → Fin k) (nrep : ℕ) (rng : ℕ → ℝ) :
    ∀ rec ∈ runResults cfg sel nrep rng, rec.N < nrep := by
  intro rec hrec
  unfold runResults at hrec
  rw [List.mem_flatMap] at hrec
  obtain ⟨r, hr, hrec⟩ := hrec
  rw [List.mem_range] at hr
  unfold runReplication at hrec
  rw [List.mem_map] at hrec
  obtain ⟨j, _, rfl⟩ := hrec
  exact hr

lemma groupDiff_runResults {k : ℕ} (cfg : Config k)
    (sel : ℕ → (Fin k → BeliefState) → Fin k) (rng : ℕ → ℝ) (x : Fin k) :
    ∀ nrep : ℕ,
    groupDiff TrialRecord.N (fun rec => ((rec.beliefs x).n : ℤ)) (fun _ => none)
      (runResults cfg sel nrep rng) =
    (List.range nrep).flatMap fun r => (List.range cfg.T).map fun j =>
      if j = 0 then none
      else some
        (((beliefsAfter cfg sel (replicationTruths cfg r rng)
            (replicationObs cfg r rng) (j + 1) x).n : ℤ) -
         ((beliefsAfter cfg sel (replicationTruths cfg r rng)
            (replicationObs cfg r rng) (j - 1 + 1) x).n : ℤ))
  | 0 => rfl
  | nrep + 1 => by
    have hstep : runResults cfg sel (nrep + 1) rng =
        runResults cfg sel nrep rng ++ runReplication cfg sel nrep rng := by
      unfold runResults
      rw [List.range_succ, List.flatMap_append]
      simp
    rw [hstep, groupDiff_append,
      groupDiff_runResults cfg sel rng x nrep, List.range_succ,
      List.flatMap_append]
    congr 1
    · simp only [List.flatMap_cons, List.flatMap_nil, List.append_nil]
      have hlast : lastAfter TrialRecord.N
          (fun rec => ((rec.beliefs x).n : ℤ)) (fun _ => none)
          (runResults cfg sel nrep rng) nrep = none :=
        lastAfter_not_mem _ _ nrep _ _
          fun rec hrec => Nat.ne_of_lt (runResults_N_lt cfg sel nrep rng rec hrec)
      have hblock : runReplication cfg sel nrep rng =
          (List.range cfg.T).map fun j =>
            TrialRecord.mk nrep j
              (chosenAt cfg sel (replicationTruths cfg nrep rng)
                (replicationObs cfg nrep rng) j)
              (beliefsAfter cfg sel (replicationTruths cfg nrep rng)
                (replicationObs cfg nrep rng) (j + 1)) := rfl
      rw [hblock, groupDiff_map_range TrialRecord.N
        (fun rec => ((rec.beliefs x).n : ℤ)) nrep cfg.T _ (fun j => rfl) _,
        hlast]
      refine List.map_congr_left fun j hj => ?_
      by_cases hj0 : j = 0
      · subst hj0
        simp
      · rw [if_neg hj0, if_neg hj0]

/-- C10: the notebook's derived per-alternative "chosen" column, computed by
`policy.results.groupby("N")[drug + "_N"].diff()`, is undefined (NaN, here
`none`) on the first trial record of every replication — the diff has no
predecessor row within the replication group — and on every later trial it is
the numeric difference `n_t - n_(t-1)` of observation counts, an integer
rather than a boolean. -/
theorem C10_groupby_diff_semantics {k : ℕ} (cfg : Config k)
    (sel : ℕ → (Fin k → BeliefState) → Fin k) (nrep : ℕ) (rng : ℕ → ℝ)
    (x : Fin k) (r j : ℕ) (hr : r < nrep) (hj : j < cfg.T) :
    (groupDiff TrialRecord.N (fun rec => ((rec.beliefs x).n : ℤ)) (fun _ => none)
      (runResults cfg sel nrep rng))[r * cfg.T + j]? =
    some (if j = 0 then none
      else some
        (((beliefsAfter cfg sel (replicationTruths cfg r rng)
            (replicationObs cfg r rng) (j + 1) x).n : ℤ) -
         ((beliefsAfter cfg sel (replicationTruths cfg r rng)
            (replicationObs cfg r rng) j x).n : ℤ))) := by
  rw [groupDiff_runResults cfg sel rng x nrep,
    flatMap_blocks_getElem _ cfg.T (fun r => by simp) nrep r j hr hj,
    List.getElem?_map, List.getElem?_range hj]
  simp only [Option.map_some']
  by_cases hj0 : j = 0
  · subst hj0
    rfl
  · have hsucc : j - 1 + 1 = j := by omega
    rw [hsucc]

/-- Witness for C10 on `cfg1`, one replication, first trial record, whose
derived diff is `none` (pandas NaN). -/
theorem C10_witness :
    0 < 1 ∧ 0 < cfg1.T ∧
    (groupDiff TrialRecord.N (fun rec => ((rec.beliefs 0).n : ℤ)) (fun _ => none)
      (runResults cfg1 (fun _ _ => 0) 1 (fun _ => 0)))[0 * cfg1.T + 0]? =
    some (if (0 : ℕ) = 0 then none
      else some
        (((beliefsAfter cfg1 (fun _ _ => 0) (replicationTruths cfg1 0 (fun _ => 0))
            (replicationObs cfg1 0 (fun _ => 0)) (0 + 1) 0).n : ℤ) -
         ((beliefsAfter cfg1 (fun _ _ => 0) (replicationTruths cfg1 0 (fun _ => 0))
            (replicationObs cfg1 0 (fun _ => 0)) 0 0).n : ℤ))) :=
  ⟨Nat.one_pos, by norm_num [cfg1],
    C10_groupby_diff_semantics cfg1 (fun _ _ => 0) 1 (fun _ => 0) 0 0 0
      Nat.one_pos (by norm_num [cfg1])⟩

/-- C1: the Bayesian update returns exactly the conjugate normal-normal
posterior: `beta' = beta + beta_W`, `mu' = (beta*mu + beta_W*o) / beta'` and
`n' = n + 1`, with `beta_W = 1/sigma_W^2` derived from the configured
`sigma_W > 0`. -/
theorem C1_update_is_conjugate_posterior (b : BeliefState) (o sigma_W : ℝ)
    (hbeta : 0 < b.beta) (hsig : 0 < sigma_W) :
    (b.update (beta_W sigma_W) o).beta = b.beta + 1 / sigma_W ^ 2 ∧
    (b.update (beta_W sigma_W) o).mu =
      (b.beta * b.mu + (1 / sigma_W ^ 2) * o) / (b.beta + 1 / sigma_W ^ 2) ∧
    (b.update (beta_W sigma_W) o).n = b.n + 1 := by
  refine ⟨rfl, rfl, rfl⟩

/-- Witness for C1 at the concrete belief `(mu, beta, n) = (0, 1, 0)`,
observation `2`, `sigma_W = 1`. -/
theorem C1_witness :
    (0 : ℝ) < (BeliefState.mk 0 1 0).beta ∧ (0 : ℝ) < 1 ∧
    ((BeliefState.mk 0 1 0).update (beta_W 1) 2).beta = 1 + 1 / 1 ^ 2 ∧
    ((BeliefState.mk 0 1 0).update (beta_W 1) 2).mu =
      (1 * 0 + (1 / 1 ^ 2) * 2) / (1 + 1 / 1 ^ 2) ∧
    ((BeliefState.mk 0 1 0).update (beta_W 1) 2).n = 0 + 1 :=
  ⟨by norm_num, by norm_num,
    C1_update_is_conjugate_posterior (BeliefState.mk 0 1 0) 2 1 (by norm_num)
      (by norm_num)⟩

end MedicalDecision
